import Mathlib

/-!
Verification development for the streaming markdown renderer.

Strings are modelled as `List Char`; each Rust function of the repository is
translated into an executable Lean definition operating on these lists, with
stateful scanning loops turned into explicit state records folded over the
input. The asynchronous writer is modelled as a state machine whose FIFO
queue is a `List` of messages owned by a single consumer.
-/

/-- The ASCII escape character, `'\x1b'` in the Rust sources. -/
def escChar : Char := Char.ofNat 27

/-- Model of Rust `char::is_whitespace` (the Unicode White_Space property),
used by `split_text` and `split_whitespace`. -/
def is_rust_ws (c : Char) : Bool :=
  let n := c.toNat
  decide ((9 ≤ n ∧ n ≤ 13) ∨ n = 0x20 ∨ n = 0x85 ∨ n = 0xA0 ∨ n = 0x1680 ∨
    (0x2000 ≤ n ∧ n ≤ 0x200A) ∨ n = 0x2028 ∨ n = 0x2029 ∨ n = 0x202F ∨
    n = 0x205F ∨ n = 0x3000)

/-- Model of the external `unicode_width` crate's `c.width().unwrap_or(0)`:
0 for control characters and combining marks, 2 for wide (CJK/emoji)
characters, 1 otherwise. -/
def char_width (c : Char) : Nat :=
  let n := c.toNat
  if n < 0x20 then 0
  else if 0x7F ≤ n ∧ n < 0xA0 then 0
  else if 0x300 ≤ n ∧ n ≤ 0x36F then 0
  else if (0x1100 ≤ n ∧ n ≤ 0x115F) ∨ (0x2E80 ≤ n ∧ n ≤ 0x303E) ∨
      (0x3041 ≤ n ∧ n ≤ 0x33FF) ∨ (0x3400 ≤ n ∧ n ≤ 0x4DBF) ∨
      (0x4E00 ≤ n ∧ n ≤ 0x9FFF) ∨ (0xA000 ≤ n ∧ n ≤ 0xA4CF) ∨
      (0xAC00 ≤ n ∧ n ≤ 0xD7A3) ∨ (0xF900 ≤ n ∧ n ≤ 0xFAFF) ∨
      (0xFE30 ≤ n ∧ n ≤ 0xFE4F) ∨ (0xFF00 ≤ n ∧ n ≤ 0xFF60) ∨
      (0xFFE0 ≤ n ∧ n ≤ 0xFFE6) ∨ (0x1F300 ≤ n ∧ n ≤ 0x1F64F) ∨
      (0x1F900 ≤ n ∧ n ≤ 0x1FAFF) ∨ (0x20000 ≤ n ∧ n ≤ 0x3FFFD) then 2
  else 1

/-- Scanner state of `visible_length` in `src/text.rs`: running width plus
the three mode flags of the single left-to-right scan. -/
structure VisSt where
  len : Nat
  inCsi : Bool
  inOsc : Bool
  prevEsc : Bool
  deriving Repr, DecidableEq

/-- One character step of the `visible_length` scan, translated from the
`for c in s.chars()` loop body of `src/text.rs`. -/
def vis_step (st : VisSt) (c : Char) : VisSt :=
  if st.prevEsc then
    if c = '[' then { st with prevEsc := false, inCsi := true }
    else if c = ']' then { st with prevEsc := false, inOsc := true }
    else if c = '\\' ∧ st.inOsc then { st with prevEsc := false, inOsc := false }
    else { st with prevEsc := false, len := st.len + char_width c }
  else if c = escChar then { st with prevEsc := true }
  else if st.inCsi then
    if c = 'm' ∨ c = 'K' ∨ c = 'H' ∨ c = 'J' then { st with inCsi := false } else st
  else if st.inOsc then st
  else { st with len := st.len + char_width c }

/-- Translation of `visible_length` from `src/text.rs`: display columns of a
string, skipping CSI and OSC sequences. -/
def visible_length (s : List Char) : Nat :=
  (List.foldl vis_step ⟨0, false, false, false⟩ s).len

/-- Scanner state of `split_text` in `src/text.rs`: accumulated words, the
word being built, and the escape-buffering mode. -/
structure SplitSt where
  words : List (List Char)
  current : List Char
  inEscape : Bool
  escapeBuf : List Char
  deriving Repr, DecidableEq

/-- One character step of `split_text`, translated from the loop body in
`src/text.rs` lines 78-102. -/
def split_step (st : SplitSt) (ch : Char) : SplitSt :=
  if st.inEscape then
    if ch = 'm' then
      { st with current := st.current ++ (st.escapeBuf ++ [ch]),
                escapeBuf := [], inEscape := false }
    else { st with escapeBuf := st.escapeBuf ++ [ch] }
  else if ch = escChar then
    { st with inEscape := true, escapeBuf := st.escapeBuf ++ [ch] }
  else if is_rust_ws ch then
    if st.current = [] then st
    else { st with words := st.words ++ [st.current], current := [] }
  else { st with current := st.current ++ [ch] }

/-- Post-loop flush of `split_text` (`src/text.rs` lines 104-110): a still
open escape buffer is appended to the current word, and a nonempty current
word is pushed. -/
def split_finish (st : SplitSt) : List (List Char) :=
  let cur := if st.escapeBuf = [] then st.current else st.current ++ st.escapeBuf
  if cur = [] then st.words else st.words ++ [cur]

/-- Translation of `split_text` from `src/text.rs`: tokenize on Unicode
whitespace while buffering escape sequences so they stay inside one word. -/
def split_text (s : List Char) : List (List Char) :=
  split_finish (List.foldl split_step ⟨[], [], false, []⟩ s)

/-- Helper for `split_whitespace`: accumulate a word and emit it at each
whitespace boundary, as Rust's `str::split_whitespace` does. -/
def sw_go : List Char → List Char → List (List Char)
  | cur, [] => if cur = [] then [] else [cur]
  | cur, c :: cs =>
    if is_rust_ws c then
      if cur = [] then sw_go [] cs else cur :: sw_go [] cs
    else sw_go (cur ++ [c]) cs

/-- Model of Rust `str::split_whitespace`: words separated by runs of
Unicode whitespace, with no empty words. -/
def split_whitespace (s : List Char) : List (List Char) := sw_go [] s

/-- One word step of `simple_wrap` (`src/text.rs` lines 124-137): start the
line, extend it when it still fits, or finalize it and start over. The
accumulator is the pair of finished lines and the current line. -/
def sw_step (width : Nat) (acc : List (List Char) × List Char) (word : List Char) :
    List (List Char) × List Char :=
  if acc.2 = [] then (acc.1, word)
  else if acc.2.length + 1 + word.length ≤ width then (acc.1, acc.2 ++ ' ' :: word)
  else (acc.1 ++ [acc.2], word)

/-- Post-loop flush of `simple_wrap` (`src/text.rs` lines 139-145): push a
nonempty current line; an empty line list becomes one empty line. -/
def sw_flush (r : List (List Char) × List Char) : List (List Char) :=
  if r.2 = [] then (if r.1 = [] then [[]] else r.1) else r.1 ++ [r.2]

/-- Translation of `simple_wrap` from `src/text.rs`: plain greedy word wrap
on character counts, oblivious to escape sequences. -/
def simple_wrap (text : List Char) (width : Nat) : List (List Char) :=
  if width = 0 ∨ text = [] then [text]
  else sw_flush (List.foldl (sw_step width) ([], []) (split_whitespace text))

/-- Join a list of strings with a single separator character between
consecutive elements. -/
def sep_join (sep : Char) : List (List Char) → List Char
  | [] => []
  | [w] => w
  | w :: ws => w ++ sep :: sep_join sep ws

/-- Words of one output line of `text_wrap`, joined by the single spaces the
wrapper inserts. -/
def join_words (g : List (List Char)) : List Char := sep_join ' ' g

/-- The lines of `text_wrap` as a function of the word groups it formed:
the first group carries the first prefix, later groups the continuation
prefix. -/
def build_lines (fp np : List Char) : List (List (List Char)) → List (List Char)
  | [] => []
  | g :: gs => (fp ++ join_words g) :: gs.map (fun h => np ++ join_words h)

/-- Loop state of `text_wrap` in `src/text.rs`: finished lines, the line
being built, its running visible length, and the first-line flag. -/
structure WrapSt where
  lines : List (List Char)
  currentLine : List Char
  currentLen : Nat
  isFirst : Bool
  deriving Repr, DecidableEq

/-- One word step of `text_wrap`, translated from the `for word in &words`
loop body in `src/text.rs` lines 174-207. -/
def wrap_step (width : Nat) (fp np : List Char) (fpl npl : Nat)
    (st : WrapSt) (word : List Char) : WrapSt :=
  if st.currentLen + visible_length word + (if st.currentLine = [] then 0 else 1) ≤
      width - (if st.isFirst then fpl else npl) then
    { st with
      currentLine := st.currentLine ++ (if st.currentLine = [] then word else ' ' :: word),
      currentLen := st.currentLen + (if st.currentLine = [] then 0 else 1) + visible_length word }
  else if st.currentLine = [] then
    { st with currentLine := word, currentLen := visible_length word }
  else
    { lines := st.lines ++ [(if st.isFirst then fp else np) ++ st.currentLine],
      currentLine := word, currentLen := visible_length word, isFirst := false }

/-- Final flush of `text_wrap` (`src/text.rs` lines 210-217): a nonempty
current line is prefixed and appended. -/
def wrap_finish (fp np : List Char) (st : WrapSt) : List (List Char) :=
  if st.currentLine = [] then st.lines
  else st.lines ++ [(if st.isFirst then fp else np) ++ st.currentLine]

/-- Translation of `text_wrap` from `src/text.rs`: escape-aware greedy wrap
with distinct first and continuation prefixes; the result is the `lines`
field of the returned `WrappedText`. -/
def text_wrap (s : List Char) (width : Nat) (fp np : List Char) : List (List Char) :=
  if width = 0 then []
  else
    let ws := split_text s
    if ws = [] then []
    else wrap_finish fp np
      (List.foldl (wrap_step width fp np (visible_length fp) (visible_length np))
        ⟨[], [], 0, true⟩ ws)

/-- Colors of the external `colored` crate used by the built-in themes in
`src/theme.rs`. -/
inductive AnsiColor
  | black | red | green | yellow | blue | magenta | cyan | white | brightBlack
  deriving Repr, DecidableEq

/-- Foreground SGR code of a color, as produced by `colored`'s `to_fg_str`. -/
def AnsiColor.fg_code : AnsiColor → List Char
  | .black => ['3', '0']
  | .red => ['3', '1']
  | .green => ['3', '2']
  | .yellow => ['3', '3']
  | .blue => ['3', '4']
  | .magenta => ['3', '5']
  | .cyan => ['3', '6']
  | .white => ['3', '7']
  | .brightBlack => ['9', '0']

/-- Background SGR code of a color, as produced by `colored`'s `to_bg_str`. -/
def AnsiColor.bg_code : AnsiColor → List Char
  | .black => ['4', '0']
  | .red => ['4', '1']
  | .green => ['4', '2']
  | .yellow => ['4', '3']
  | .blue => ['4', '4']
  | .magenta => ['4', '5']
  | .cyan => ['4', '6']
  | .white => ['4', '7']
  | .brightBlack => ['1', '0', '0']

/-- Translation of `Style` from `src/theme.rs`: optional colors plus five
independent attribute flags. -/
structure Style where
  fg : Option AnsiColor := none
  bg : Option AnsiColor := none
  bold : Bool := false
  italic : Bool := false
  underline : Bool := false
  strikethrough : Bool := false
  dimmed : Bool := false
  deriving Repr, DecidableEq

/-- Whether the style requests any attribute or color at all; `colored`
prints the text unwrapped when nothing is set. -/
def Style.has_any (s : Style) : Bool :=
  s.fg.isSome || s.bg.isSome || s.bold || s.italic || s.underline ||
    s.strikethrough || s.dimmed

/-- Attribute code fragments in the order `colored` emits them
(bold 1, dimmed 2, underline 4, italic 3, strikethrough 9). -/
def Style.attr_codes (s : Style) : List (List Char) :=
  (if s.bold then [['1']] else []) ++ (if s.dimmed then [['2']] else []) ++
  (if s.underline then [['4']] else []) ++ (if s.italic then [['3']] else []) ++
  (if s.strikethrough then [['9']] else [])

/-- The combined SGR introducer `colored` computes for a styled string
(`compute_style`): attribute codes, then background, then foreground,
joined by semicolons inside one `ESC [ ... m`. -/
def Style.seq (s : Style) : List Char :=
  escChar :: '[' ::
    (sep_join ';' (s.attr_codes ++
      (match s.bg with | some c => [c.bg_code] | none => []) ++
      (match s.fg with | some c => [c.fg_code] | none => [])) ++ ['m'])

/-- Fuel-driven scan of `colored`'s `escape_inner_reset_sequences`: after
every occurrence of the reset `ESC [ 0 m` inside the wrapped content, the
outer style sequence is re-inserted, so nested styled strings resume the
outer style after their own reset. Every step consumes at least one
character, so a fuel equal to the length makes the zero-fuel arm
unreachable. -/
def eir_go (style : List Char) : Nat → List Char → List Char
  | _, [] => []
  | 0, l => l
  | fuel + 1, c1 :: rest1 =>
    match rest1 with
    | c2 :: c3 :: c4 :: rest2 =>
      if c1 = escChar ∧ c2 = '[' ∧ c3 = '0' ∧ c4 = 'm' then
        c1 :: c2 :: c3 :: c4 :: (style ++ eir_go style fuel rest2)
      else c1 :: eir_go style fuel rest1
    | _ => c1 :: eir_go style fuel rest1

/-- Model of `colored`'s `escape_inner_reset_sequences`: insert the outer
style sequence after each inner reset occurring in the content. -/
def escape_inner_reset_sequences (style text : List Char) : List Char :=
  eir_go style text.length text

/-- Translation of `Style::apply` from `src/theme.rs`, with the `colored`
crate's rendering semantics (coloring enabled): the combined SGR
introducer, the content with the outer style re-inserted after every inner
reset, then the final reset `ESC [ 0 m`; a fully-default style leaves the
text untouched. -/
def Style.apply (s : Style) (text : List Char) : List Char :=
  if s.has_any then
    s.seq ++ (escape_inner_reset_sequences s.seq text ++
      (escChar :: '[' :: '0' :: ['m']))
  else text

/-- Translation of `Theme` from `src/theme.rs`: one style per semantic
role. -/
structure Theme where
  bold : Style
  italic : Style
  code : Style
  strikethrough : Style
  link : Style
  link_url : Style
  heading1 : Style
  heading2 : Style
  heading3 : Style
  heading4 : Style
  heading5 : Style
  heading6 : Style
  bullet : Style
  list_number : Style
  checkbox_checked : Style
  checkbox_unchecked : Style
  table_header : Style
  table_border : Style
  table_cell : Style
  blockquote : Style
  blockquote_border : Style
  think : Style
  think_border : Style
  code_block_lang : Style
  hr : Style
  deriving Repr, DecidableEq

/-- Translation of `Theme::dark` from `src/theme.rs`. -/
def Theme.dark : Theme where
  bold := { bold := true }
  italic := { italic := true }
  code := { fg := some .yellow }
  strikethrough := { strikethrough := true, dimmed := true }
  link := { fg := some .cyan, underline := true }
  link_url := { fg := some .blue, dimmed := true }
  heading1 := { fg := some .magenta, bold := true }
  heading2 := { fg := some .blue, bold := true }
  heading3 := { fg := some .cyan, bold := true }
  heading4 := { fg := some .green, bold := true }
  heading5 := { fg := some .yellow, bold := true }
  heading6 := { fg := some .white, bold := true }
  bullet := { fg := some .cyan }
  list_number := { fg := some .cyan }
  checkbox_checked := { fg := some .green }
  checkbox_unchecked := { fg := some .red }
  table_header := { bold := true }
  table_border := { fg := some .brightBlack }
  table_cell := {}
  blockquote := { italic := true, dimmed := true }
  blockquote_border := { fg := some .brightBlack }
  think := { italic := true, fg := some .brightBlack }
  think_border := { fg := some .brightBlack }
  code_block_lang := { fg := some .brightBlack, italic := true }
  hr := { fg := some .brightBlack }

/-- Translation of `Theme::light` from `src/theme.rs`. -/
def Theme.light : Theme where
  bold := { bold := true }
  italic := { italic := true }
  code := { fg := some .red }
  strikethrough := { strikethrough := true, dimmed := true }
  link := { fg := some .blue, underline := true }
  link_url := { fg := some .cyan, dimmed := true }
  heading1 := { fg := some .magenta, bold := true }
  heading2 := { fg := some .blue, bold := true }
  heading3 := { fg := some .cyan, bold := true }
  heading4 := { fg := some .green, bold := true }
  heading5 := { fg := some .yellow, bold := true }
  heading6 := { fg := some .black, bold := true }
  bullet := { fg := some .blue }
  list_number := { fg := some .blue }
  checkbox_checked := { fg := some .green }
  checkbox_unchecked := { fg := some .red }
  table_header := { bold := true }
  table_border := { fg := some .black }
  table_cell := {}
  blockquote := { italic := true, dimmed := true }
  blockquote_border := { fg := some .black }
  think := { italic := true, fg := some .black }
  think_border := { fg := some .black }
  code_block_lang := { fg := some .black, italic := true }
  hr := { fg := some .black }

/-- Translation of `render_heading` from `src/heading.rs`: wrap the content
with `simple_wrap` and format each line by heading level; levels 1 and 2 get
a leading margin line and center padding computed from the character count. -/
def render_heading (level : Nat) (content : List Char) (width : Nat)
    (margin : List Char) (theme : Theme) : List (List Char) :=
  (simple_wrap content width).map fun line =>
    let pad := (width - line.length) / 2
    match level with
    | 1 => margin ++ '\n' :: (margin ++ (List.replicate pad ' ' ++ theme.heading1.apply line))
    | 2 => margin ++ '\n' :: (margin ++ (List.replicate pad ' ' ++ theme.heading2.apply line))
    | 3 => margin ++ theme.heading3.apply line
    | 4 => margin ++ theme.heading4.apply line
    | 5 => margin ++ theme.heading5.apply line
    | _ => margin ++ theme.heading6.apply line

/-- The inline element vocabulary of the external `streamdown_parser`
crate, as consumed by `src/inline.rs`. -/
inductive InlineElement
  | text (t : List Char)
  | bold (t : List Char)
  | italic (t : List Char)
  | boldItalic (t : List Char)
  | strikeout (t : List Char)
  | underline (t : List Char)
  | code (t : List Char)
  | link (t url : List Char)
  | image (alt url : List Char)
  | footnote (t : List Char)
  deriving Repr, DecidableEq

/-- Rendering of one inline element, translated from the `match element`
arms of `render_inline_content` in `src/inline.rs`; `decode` stands for the
external `decode_html_entities`. -/
def render_inline_element (decode : List Char → List Char) (theme : Theme) :
    InlineElement → List Char
  | .text t => decode t
  | .bold t => theme.bold.apply (decode t)
  | .italic t => theme.italic.apply (decode t)
  | .boldItalic t => theme.italic.apply (theme.bold.apply (decode t))
  | .strikeout t => theme.strikethrough.apply (decode t)
  | .underline t =>
    escChar :: '[' :: '4' :: 'm' :: (decode t ++ (escChar :: '[' :: '2' :: '4' :: ['m']))
  | .code t => theme.code.apply t
  | .link t url =>
    (escChar :: ']' :: '8' :: ';' :: ';' :: url) ++ (escChar :: ['\\']) ++
      theme.link.apply (decode t) ++
      (escChar :: ']' :: '8' :: ';' :: ';' :: escChar :: ['\\']) ++ [' '] ++
      theme.link_url.apply ('(' :: url ++ [')'])
  | .image alt _ => '[' :: '🖼' :: ' ' :: (alt ++ [']'])
  | .footnote t => t

/-- Translation of `render_inline_content` from `src/inline.rs`: render each
parsed inline element in order and concatenate. -/
def render_inline_content (elements : List InlineElement)
    (decode : List Char → List Char) (theme : Theme) : List Char :=
  (elements.map (render_inline_element decode theme)).flatten

/-- Byte length of one character under UTF-8, so that string byte lengths
(Rust `String::len`) can be computed from the character list. -/
def char_utf8_len (c : Char) : Nat :=
  if c.toNat < 0x80 then 1
  else if c.toNat < 0x800 then 2
  else if c.toNat < 0x10000 then 3
  else 4

/-- Model of Rust `String::len` (UTF-8 byte count) used by `flush_table` in
`src/main.rs` for cell measurement. -/
def str_byte_len (s : List Char) : Nat := (s.map char_utf8_len).sum

/-- One row of the column-width fold of `flush_table` (`src/main.rs` lines
60-69): extend the width list with new columns, otherwise take the max. -/
def widths_merge : List Nat → List (List Char) → List Nat
  | ws, [] => ws
  | [], c :: cs => str_byte_len c :: widths_merge [] cs
  | w :: ws, c :: cs => Nat.max w (str_byte_len c) :: widths_merge ws cs

/-- Column widths of a buffered table, translated from `flush_table` in
`src/main.rs`: per column, the maximum `len()` over all cells including the
header row. -/
def compute_widths (rows : List (List (List Char))) : List Nat :=
  rows.foldl widths_merge []

/-- One horizontal border of the table: corner, `w + 2` dashes per column
joined by the junction glyph, corner (`src/main.rs` lines 72-76). -/
def border_line (l mid r : Char) (ws : List Nat) : List Char :=
  l :: (sep_join mid (ws.map fun w => List.replicate (w + 2) '─') ++ [r])

/-- Model of Rust's `{:^w$}` center formatting on strings: pad with spaces
to `w` characters, extra space on the right, no truncation. -/
def pad_center (s : List Char) (w : Nat) : List Char :=
  let d := w - s.length
  List.replicate (d / 2) ' ' ++ (s ++ List.replicate (d - d / 2) ' ')

/-- One table cell as formatted by `flush_table` (`src/main.rs` lines
82-91): centered in its column width with one space of padding; header
cells additionally get bold on/off codes. `fmt` stands for the external
`format_line` of `streamdown_parser`. -/
def render_cell (fmt : List Char → List Char) (is_header : Bool) (w : Nat)
    (c : List Char) : List Char :=
  let formatted := fmt c
  if is_header then
    ' ' :: (escChar :: '[' :: '1' :: 'm' ::
      (pad_center formatted w ++ (escChar :: '[' :: '2' :: '2' :: ['m']))) ++ [' ']
  else ' ' :: (pad_center formatted w ++ [' '])

/-- One rendered table row (`src/main.rs` lines 80-94): cells joined and
surrounded by vertical bars, each cell using its column width (falling back
to the cell's own length for surplus columns). -/
def render_row (fmt : List Char → List Char) (is_header : Bool) (ws : List Nat)
    (row : List (List Char)) : List Char :=
  '│' :: (sep_join '│'
    (row.enum.map fun ic => render_cell fmt is_header (ws.getD ic.1 (str_byte_len ic.2)) ic.2)
    ++ ['│'])

/-- Translation of `TermimadRenderer::flush_table` from `src/main.rs` as the
list of lines it writes: top border, bold centered header row, a separator
when body rows exist, body rows, bottom border; an empty buffer flushes to
nothing. -/
def flush_table (fmt : List Char → List Char) (rows : List (List (List Char))) :
    List (List Char) :=
  match rows with
  | [] => []
  | header :: body =>
    let ws := compute_widths (header :: body)
    [border_line '┌' '┬' '┐' ws, render_row fmt true ws header] ++
      (if body = [] then [] else [border_line '├' '┼' '┤' ws]) ++
      body.map (render_row fmt false ws) ++ [border_line '└' '┴' '┘' ws]

/-- Message sent to the background writer task, translated from `WriterMsg`
in `src/writer.rs`. -/
inductive WriterMsg
  | write (content : List Char)
  | shutdown
  deriving Repr, DecidableEq

/-- The consumer loop of `StreamingWriter::with_delay` (`src/writer.rs`
lines 49-71) as a function from the FIFO queue contents to the emitted
character trace: content entries are emitted character by character in
order, and a shutdown entry terminates the loop. The pacing sleep between
characters affects only timing, never the trace. -/
def consumer_run : List WriterMsg → List Char
  | [] => []
  | WriterMsg.write s :: rest => s ++ consumer_run rest
  | WriterMsg.shutdown :: _ => []

/-- The queue contents produced by a sequence of `write` calls on a fresh
`StreamingWriter`: one content entry per call, in call order (the unbounded
channel is FIFO). -/
def enqueue_writes (ws : List (List Char)) : List WriterMsg :=
  ws.map WriterMsg.write

/-- Model of `StreamingWriter::finish` (`src/writer.rs` lines 82-88): a
shutdown entry is appended to the queue and the caller suspends until the
consumer loop has terminated; the value is everything the consumer has
emitted by that point. -/
def finish_output (queue : List WriterMsg) : List Char :=
  consumer_run (queue ++ [WriterMsg.shutdown])

/-- The `io::ErrorKind` values the writer can surface. -/
inductive IoErr
  | brokenPipe
  deriving Repr, DecidableEq

/-- Producer-side state of a `StreamingWriter`: the queue it appends to,
whether the background consumer task is still alive (the send handle is
still connected), and the trace the consumer has emitted so far. -/
structure StreamingWriterSt where
  queue : List WriterMsg
  consumerAlive : Bool
  emitted : List Char
  deriving Repr, DecidableEq

/-- Replacement character U+FFFD produced by lossy UTF-8 decoding. -/
def rep_char : Char := Char.ofNat 0xFFFD

/-- Whether a byte is a UTF-8 continuation byte. -/
def is_cont (b : Nat) : Bool := decide (0x80 ≤ b ∧ b ≤ 0xBF)

/-- Valid second bytes of a three-byte UTF-8 sequence, by lead byte. -/
def snd3_ok (b b2 : Nat) : Bool :=
  if b = 0xE0 then decide (0xA0 ≤ b2 ∧ b2 ≤ 0xBF)
  else if b = 0xED then decide (0x80 ≤ b2 ∧ b2 ≤ 0x9F)
  else is_cont b2

/-- Valid second bytes of a four-byte UTF-8 sequence, by lead byte. -/
def snd4_ok (b b2 : Nat) : Bool :=
  if b = 0xF0 then decide (0x90 ≤ b2 ∧ b2 ≤ 0xBF)
  else if b = 0xF4 then decide (0x80 ≤ b2 ∧ b2 ≤ 0x8F)
  else is_cont b2

/-- Fuel-driven loop of the lossy UTF-8 decoder: every step consumes at
least one byte, so a fuel equal to the byte count makes the zero-fuel arm
unreachable; structural recursion on the fuel keeps the definition
kernel-reducible. -/
def utf8_go : Nat → List Nat → List Char
  | _, [] => []
  | 0, _ :: _ => []
  | fuel + 1, b :: rest =>
    if b ≤ 0x7F then Char.ofNat b :: utf8_go fuel rest
    else if 0xC2 ≤ b ∧ b ≤ 0xDF then
      match rest with
      | [] => [rep_char]
      | b2 :: rest2 =>
        if is_cont b2 then
          Char.ofNat ((b - 0xC0) * 0x40 + (b2 - 0x80)) :: utf8_go fuel rest2
        else rep_char :: utf8_go fuel (b2 :: rest2)
    else if 0xE0 ≤ b ∧ b ≤ 0xEF then
      match rest with
      | [] => [rep_char]
      | b2 :: rest2 =>
        if snd3_ok b b2 then
          match rest2 with
          | [] => [rep_char]
          | b3 :: rest3 =>
            if is_cont b3 then
              Char.ofNat ((b - 0xE0) * 0x1000 + (b2 - 0x80) * 0x40 + (b3 - 0x80)) ::
                utf8_go fuel rest3
            else rep_char :: utf8_go fuel (b3 :: rest3)
        else rep_char :: utf8_go fuel (b2 :: rest2)
    else if 0xF0 ≤ b ∧ b ≤ 0xF4 then
      match rest with
      | [] => [rep_char]
      | b2 :: rest2 =>
        if snd4_ok b b2 then
          match rest2 with
          | [] => [rep_char]
          | b3 :: rest3 =>
            if is_cont b3 then
              match rest3 with
              | [] => [rep_char]
              | b4 :: rest4 =>
                if is_cont b4 then
                  Char.ofNat ((b - 0xF0) * 0x40000 + (b2 - 0x80) * 0x1000 +
                    (b3 - 0x80) * 0x40 + (b4 - 0x80)) :: utf8_go fuel rest4
                else rep_char :: utf8_go fuel (b4 :: rest4)
            else rep_char :: utf8_go fuel (b3 :: rest3)
        else rep_char :: utf8_go fuel (b2 :: rest2)
    else rep_char :: utf8_go fuel rest

/-- Model of Rust `String::from_utf8_lossy` used by `StreamingWriter::write`
(`src/writer.rs` line 105): decode UTF-8 with substitution of maximal
invalid subparts by U+FFFD, one replacement per rejected prefix. -/
def from_utf8_lossy (buf : List Nat) : List Char := utf8_go buf.length buf

/-- Translation of `<StreamingWriter as Write>::write` (`src/writer.rs`
lines 104-110): lossily decode the bytes, try to enqueue one content entry,
surface a broken-pipe error exactly when the consumer task is gone, and on
success report the full input length; nothing is emitted and no pacing
delay is taken during the call. -/
def writer_write (st : StreamingWriterSt) (buf : List Nat) :
    Except IoErr (StreamingWriterSt × Nat) :=
  if st.consumerAlive then
    Except.ok
      ({ st with queue := st.queue ++ [WriterMsg.write (from_utf8_lossy buf)] },
        buf.length)
  else Except.error IoErr.brokenPipe

/-- A list is a contiguous segment of itself. -/
theorem mid_refl (x : List Char) : x <:+: x := ⟨[], [], by simp⟩

/-- A suffix is in particular a contiguous segment. -/
theorem mid_of_suffix {x y : List Char} (h : x <:+ y) : x <:+: y := by
  obtain ⟨s, rfl⟩ := h
  exact ⟨s, [], by simp⟩

/-- Extending a list on the right preserves contiguous segments. -/
theorem mid_append_right {x y : List Char} (z : List Char) (h : x <:+: y) :
    x <:+: y ++ z := by
  obtain ⟨s, t, h⟩ := h
  exact ⟨s, t ++ z, by rw [← h]; simp⟩

/-- Extending a list on the left preserves contiguous segments. -/
theorem mid_append_left (y : List Char) {x z : List Char} (h : x <:+: z) :
    x <:+: y ++ z := by
  obtain ⟨s, t, h⟩ := h
  exact ⟨y ++ s, t, by rw [← h]; simp⟩

/-- A nonempty list is not a segment of the empty list. -/
theorem mid_nil {x : List Char} (h : x <:+: ([] : List Char)) : x = [] := by
  obtain ⟨s, t, h⟩ := h
  have := congrArg List.length h
  simp at this
  simp [this]

/-- Processing one escape character always enters escape mode and buffers
the character, whatever mode the scanner was in. -/
theorem split_step_esc (st : SplitSt) :
    split_step st escChar = ⟨st.words, st.current, true, st.escapeBuf ++ [escChar]⟩ := by
  obtain ⟨w, c, ie, eb⟩ := st
  have h : escChar ≠ 'm' := by decide
  cases ie <;> simp [split_step, h]

/-- Processing a non-terminator character in escape mode only extends the
escape buffer. -/
theorem split_step_inesc {st : SplitSt} {c : Char} (hie : st.inEscape = true)
    (hc : c ≠ 'm') :
    split_step st c = ⟨st.words, st.current, true, st.escapeBuf ++ [c]⟩ := by
  obtain ⟨w, cur, ie, eb⟩ := st
  cases ie with
  | false => simp at hie
  | true => simp [split_step, hc]

/-- Processing the terminator in escape mode flushes the buffer into the
current word and leaves escape mode. -/
theorem split_step_m {st : SplitSt} (hie : st.inEscape = true) :
    split_step st 'm' = ⟨st.words, st.current ++ (st.escapeBuf ++ ['m']), false, []⟩ := by
  obtain ⟨w, cur, ie, eb⟩ := st
  cases ie with
  | false => simp at hie
  | true => simp [split_step]

/-- A run of characters free of the terminator, processed in escape mode,
lands entirely in the escape buffer. -/
theorem split_escape_run :
    ∀ (body : List Char) (st : SplitSt), st.inEscape = true → 'm' ∉ body →
      List.foldl split_step st body = ⟨st.words, st.current, true, st.escapeBuf ++ body⟩ := by
  intro body
  induction body with
  | nil =>
    intro st hie _
    obtain ⟨w, cur, ie, eb⟩ := st
    cases ie with
    | false => simp at hie
    | true => simp
  | cons c cs ih =>
    intro st hie hm
    have hc : c ≠ 'm' := fun h => hm (h ▸ List.mem_cons_self c cs)
    have hcs : 'm' ∉ cs := fun h => hm (List.mem_cons_of_mem c h)
    rw [List.foldl_cons, split_step_inesc hie hc, ih _ rfl hcs]
    simp

/-- Scanning a complete CSI-style sequence `ESC [ body m` from any state
appends the whole sequence (after any pending escape buffer) to the current
word and resets the escape machinery. -/
theorem split_seg_scan (st : SplitSt) (body : List Char) (hm : 'm' ∉ body) :
    List.foldl split_step st (escChar :: '[' :: (body ++ ['m'])) =
      ⟨st.words, st.current ++ (st.escapeBuf ++ (escChar :: '[' :: (body ++ ['m']))),
        false, []⟩ := by
  rw [List.foldl_cons, split_step_esc, List.foldl_cons,
    split_step_inesc rfl (by decide)]
  rw [List.foldl_append, split_escape_run body _ rfl hm]
  simp only [List.foldl_cons, List.foldl_nil]
  rw [split_step_m rfl]
  simp [List.append_assoc]

/-- Branch-free description of `split_finish`: with a pending escape buffer
the flushed word is current plus buffer and always nonempty. -/
theorem split_finish_eq (st : SplitSt) :
    split_finish st =
      if st.escapeBuf = [] then
        if st.current = [] then st.words else st.words ++ [st.current]
      else st.words ++ [st.current ++ st.escapeBuf] := by
  unfold split_finish
  by_cases h : st.escapeBuf = [] <;> by_cases h2 : st.current = [] <;> simp [h, h2]

/-- Words already collected by the scanner survive to the final output. -/
theorem split_words_mem :
    ∀ (cs : List Char) (st : SplitSt) (w : List Char), w ∈ st.words →
      w ∈ split_finish (List.foldl split_step st cs) := by
  intro cs
  induction cs with
  | nil =>
    intro st w hw
    rw [List.foldl_nil, split_finish_eq]
    split_ifs <;> simp [hw]
  | cons c cs ih =>
    intro st w hw
    rw [List.foldl_cons]
    apply ih
    unfold split_step
    split_ifs <;> simp [hw]

/-- A nonempty segment of the word under construction ends up inside some
word of the final output, whatever input remains. -/
theorem split_persist :
    ∀ (cs : List Char) (st : SplitSt) (x : List Char), x ≠ [] → x <:+: st.current →
      ∃ w ∈ split_finish (List.foldl split_step st cs), x <:+: w := by
  intro cs
  induction cs with
  | nil =>
    intro st x hx hmid
    have hcur : st.current ≠ [] := by
      rintro h
      exact hx (mid_nil (h ▸ hmid))
    rw [List.foldl_nil, split_finish_eq]
    by_cases heb : st.escapeBuf = []
    · rw [if_pos heb, if_neg hcur]
      exact ⟨st.current, by simp, hmid⟩
    · rw [if_neg heb]
      exact ⟨st.current ++ st.escapeBuf, by simp, mid_append_right _ hmid⟩
  | cons c cs ih =>
    intro st x hx hmid
    rw [List.foldl_cons]
    have hcur : st.current ≠ [] := by
      rintro h
      exact hx (mid_nil (h ▸ hmid))
    by_cases hie : st.inEscape = true
    · by_cases hc : c = 'm'
      · subst hc
        rw [split_step_m hie]
        exact ih _ x hx (mid_append_right _ hmid)
      · rw [split_step_inesc hie hc]
        exact ih _ x hx hmid
    · by_cases hesc : c = escChar
      · subst hesc
        rw [split_step_esc]
        exact ih _ x hx hmid
      · by_cases hws : is_rust_ws c = true
        · have hstep : split_step st c =
              ⟨st.words ++ [st.current], [], st.inEscape, st.escapeBuf⟩ := by
            obtain ⟨w, cur, ie, eb⟩ := st
            cases ie with
            | true => simp at hie
            | false =>
              simp only at hcur
              simp [split_step, hesc, hws, hcur]
          rw [hstep]
          refine ⟨st.current, ?_, hmid⟩
          apply split_words_mem
          simp
        · have hstep : split_step st c =
              ⟨st.words, st.current ++ [c], st.inEscape, st.escapeBuf⟩ := by
            obtain ⟨w, cur, ie, eb⟩ := st
            cases ie with
            | true => simp at hie
            | false => simp [split_step, hesc, hws]
          rw [hstep]
          exact ih _ x hx (mid_append_right [c] hmid)

/-- Every word produced by `split_text` is nonempty. -/
theorem split_words_ne_go :
    ∀ (cs : List Char) (st : SplitSt), (∀ w ∈ st.words, w ≠ []) →
      ∀ w ∈ split_finish (List.foldl split_step st cs), w ≠ [] := by
  intro cs
  induction cs with
  | nil =>
    intro st hws w hw
    rw [List.foldl_nil, split_finish_eq] at hw
    split_ifs at hw with h1 h2
    · exact hws w hw
    · rcases List.mem_append.mp hw with h | h
      · exact hws w h
      · rw [List.mem_singleton.mp h]
        exact h2
    · rcases List.mem_append.mp hw with h | h
      · exact hws w h
      · rw [List.mem_singleton.mp h]
        simp [h1]
  | cons c cs ih =>
    intro st hws w hw
    rw [List.foldl_cons] at hw
    refine ih _ ?_ w hw
    unfold split_step
    split_ifs with h1 h2 h3 h4 h5
    · simpa using hws
    · simpa using hws
    · simpa using hws
    · simpa using hws
    · intro u hu
      rcases List.mem_append.mp hu with h | h
      · exact hws u h
      · rw [List.mem_singleton.mp h]
        exact h5
    · simpa using hws

/-- Every word of `split_text` is nonempty. -/
theorem split_words_ne (s : List Char) : ∀ w ∈ split_text s, w ≠ [] :=
  split_words_ne_go s ⟨[], [], false, []⟩ (by simp)

/-- Every complete CSI-style sequence occurring in the input lies intact
inside a single word of `split_text`. -/
theorem split_seg_in_word (pre body post : List Char) (hm : 'm' ∉ body) :
    ∃ w ∈ split_text (pre ++ (escChar :: '[' :: (body ++ ['m'])) ++ post),
      (escChar :: '[' :: (body ++ ['m'])) <:+: w := by
  unfold split_text
  rw [List.foldl_append, List.foldl_append, split_seg_scan _ body hm]
  apply split_persist
  · simp
  · apply mid_of_suffix
    rw [← List.append_assoc]
    exact List.suffix_append _ _

/-- Joining a singleton group is the word itself. -/
theorem join_words_single (w : List Char) : join_words [w] = w := rfl

/-- Joining a group with at least two words starts with the first word and
a space. -/
theorem join_words_cons2 (x y : List Char) (t : List (List Char)) :
    join_words (x :: y :: t) = x ++ ' ' :: join_words (y :: t) := rfl

/-- A nonempty group of nonempty words joins to a nonempty line. -/
theorem join_words_ne {g : List (List Char)} (hne : ∀ wd ∈ g, wd ≠ [])
    (hg : g ≠ []) : join_words g ≠ [] := by
  match g with
  | [w] =>
    rw [join_words_single]
    exact hne w (by simp)
  | x :: y :: t =>
    rw [join_words_cons2]
    simp

/-- Appending one word to a group headed by `x` extends the joined line
with a single separating space. -/
theorem join_words_append_cons (x wd : List Char) (t : List (List Char)) :
    join_words ((x :: t) ++ [wd]) = join_words (x :: t) ++ ' ' :: wd := by
  induction t generalizing x with
  | nil => rfl
  | cons y t2 ih =>
    simp only [List.cons_append]
    rw [join_words_cons2, join_words_cons2]
    have h := ih y
    simp only [List.cons_append] at h
    rw [h]
    simp

/-- Appending one word to a nonempty group extends the joined line with a
single separating space. -/
theorem join_words_append_one {g : List (List Char)} (wd : List Char) (hg : g ≠ []) :
    join_words (g ++ [wd]) = join_words g ++ ' ' :: wd := by
  match g, hg with
  | x :: t, _ => exact join_words_append_cons x wd t

/-- Finalizing one more group appends one more line, prefixed according to
whether it is the first. -/
theorem build_lines_append_one (fp np : List Char) (gs : List (List (List Char)))
    (g : List (List Char)) :
    build_lines fp np (gs ++ [g]) =
      build_lines fp np gs ++ [(if gs.isEmpty then fp else np) ++ join_words g] := by
  cases gs with
  | nil => simp [build_lines]
  | cons g0 t => simp [build_lines]

/-- Partition invariant of the `text_wrap` loop: from a state describing
already-built groups `fin` and a group under construction `gcur`, the fold
over the remaining words ends in a state of the same shape, and the words
are conserved in order. -/
theorem wrap_go_partition (w : Nat) (fp np : List Char) (fpl npl : Nat) :
    ∀ (ws : List (List Char)) (fin : List (List (List Char)))
      (gcur : List (List Char)) (clen : Nat),
      (∀ wd ∈ ws, wd ≠ []) → (∀ g ∈ fin, g ≠ []) → (∀ wd ∈ gcur, wd ≠ []) →
      ∃ fin2 gcur2 clen2,
        List.foldl (wrap_step w fp np fpl npl)
            ⟨build_lines fp np fin, join_words gcur, clen, fin.isEmpty⟩ ws =
          ⟨build_lines fp np fin2, join_words gcur2, clen2, fin2.isEmpty⟩ ∧
        fin2.flatten ++ gcur2 = fin.flatten ++ gcur ++ ws ∧
        (∀ g ∈ fin2, g ≠ []) ∧ (∀ wd ∈ gcur2, wd ≠ []) := by
  intro ws
  induction ws with
  | nil =>
    intro fin gcur clen _ hfin hgcur
    exact ⟨fin, gcur, clen, rfl, by simp, hfin, hgcur⟩
  | cons wd ws ih =>
    intro fin gcur clen hws hfin hgcur
    have hwd : wd ≠ [] := hws wd (List.mem_cons_self wd ws)
    have hws2 : ∀ x ∈ ws, x ≠ [] := fun x hx => hws x (List.mem_cons_of_mem _ hx)
    rw [List.foldl_cons]
    by_cases hg : gcur = []
    · subst hg
      have hjw : join_words ([] : List (List Char)) = [] := rfl
      by_cases hcond : clen + visible_length wd + 0 ≤
          w - (if List.isEmpty fin = true then fpl else npl)
      · have hstep : wrap_step w fp np fpl npl
            ⟨build_lines fp np fin, join_words [], clen, fin.isEmpty⟩ wd =
            ⟨build_lines fp np fin, join_words [wd], clen + 0 + visible_length wd,
              fin.isEmpty⟩ := by
          simp only [wrap_step, hjw, join_words_single]
          rw [if_pos]
          · simp [join_words_single]
          · simpa using hcond
        rw [hstep]
        obtain ⟨fin2, gcur2, clen2, heq, hjoin, hf, hg2⟩ :=
          ih fin [wd] (clen + 0 + visible_length wd) hws2 hfin (by simpa using hwd)
        exact ⟨fin2, gcur2, clen2, heq, by simpa using hjoin, hf, hg2⟩
      · have hstep : wrap_step w fp np fpl npl
            ⟨build_lines fp np fin, join_words [], clen, fin.isEmpty⟩ wd =
            ⟨build_lines fp np fin, join_words [wd], visible_length wd,
              fin.isEmpty⟩ := by
          simp only [wrap_step, hjw, join_words_single]
          rw [if_neg]
          · simp [join_words_single]
          · simpa using hcond
        rw [hstep]
        obtain ⟨fin2, gcur2, clen2, heq, hjoin, hf, hg2⟩ :=
          ih fin [wd] (visible_length wd) hws2 hfin (by simpa using hwd)
        exact ⟨fin2, gcur2, clen2, heq, by simpa using hjoin, hf, hg2⟩
    · have hjwne : join_words gcur ≠ [] := join_words_ne hgcur hg
      by_cases hcond : clen + visible_length wd + 1 ≤
          w - (if List.isEmpty fin = true then fpl else npl)
      · have hstep : wrap_step w fp np fpl npl
            ⟨build_lines fp np fin, join_words gcur, clen, fin.isEmpty⟩ wd =
            ⟨build_lines fp np fin, join_words (gcur ++ [wd]),
              clen + 1 + visible_length wd, fin.isEmpty⟩ := by
          simp only [wrap_step]
          rw [if_pos]
          · rw [join_words_append_one wd hg]
            simp [hjwne]
          · simpa [hjwne] using hcond
        rw [hstep]
        obtain ⟨fin2, gcur2, clen2, heq, hjoin, hf, hg2⟩ :=
          ih fin (gcur ++ [wd]) (clen + 1 + visible_length wd) hws2 hfin
            (by intro x hx; rcases List.mem_append.mp hx with h | h
                · exact hgcur x h
                · rw [List.mem_singleton.mp h]; exact hwd)
        refine ⟨fin2, gcur2, clen2, heq, ?_, hf, hg2⟩
        rw [hjoin]
        simp
      · have hstep : wrap_step w fp np fpl npl
            ⟨build_lines fp np fin, join_words gcur, clen, fin.isEmpty⟩ wd =
            ⟨build_lines fp np (fin ++ [gcur]), join_words [wd], visible_length wd,
              (fin ++ [gcur]).isEmpty⟩ := by
          simp only [wrap_step]
          rw [if_neg, if_neg hjwne]
          · rw [build_lines_append_one]
            simp [join_words_single]
          · simpa [hjwne] using hcond
        rw [hstep]
        obtain ⟨fin2, gcur2, clen2, heq, hjoin, hf, hg2⟩ :=
          ih (fin ++ [gcur]) [wd] (visible_length wd) hws2
            (by intro g hgm; rcases List.mem_append.mp hgm with h | h
                · exact hfin g h
                · rw [List.mem_singleton.mp h]; exact hg)
            (by simpa using hwd)
        refine ⟨fin2, gcur2, clen2, heq, ?_, hf, hg2⟩
        rw [hjoin]
        simp

/-- Shared partition description of `text_wrap`: for nonzero width the
output lines are exactly the prefixed space-joined groups of an ordered
partition of the `split_text` words. -/
theorem text_wrap_partition (s : List Char) (w : Nat) (fp np : List Char)
    (hw : w ≠ 0) :
    ∃ gs : List (List (List Char)), (∀ g ∈ gs, g ≠ []) ∧
      gs.flatten = split_text s ∧ text_wrap s w fp np = build_lines fp np gs := by
  unfold text_wrap
  rw [if_neg hw]
  by_cases hws : split_text s = []
  · refine ⟨[], by simp, by simp [hws], ?_⟩
    simp [hws, build_lines]
  · have hne := split_words_ne s
    obtain ⟨fin2, gcur2, clen2, heq, hjoin, hf, hg2⟩ :=
      wrap_go_partition w fp np (visible_length fp) (visible_length np)
        (split_text s) [] [] 0 hne (by simp) (by simp)
    rw [if_neg hws]
    have hinit : (⟨[], [], 0, true⟩ : WrapSt) =
        ⟨build_lines fp np [], join_words [], 0,
          List.isEmpty ([] : List (List (List Char)))⟩ := rfl
    rw [hinit, heq]
    by_cases hg : gcur2 = []
    · subst hg
      refine ⟨fin2, hf, by simpa using hjoin, ?_⟩
      unfold wrap_finish
      simp [join_words, sep_join]
    · refine ⟨fin2 ++ [gcur2], ?_, ?_, ?_⟩
      · intro g hgm
        rcases List.mem_append.mp hgm with h | h
        · exact hf g h
        · rw [List.mem_singleton.mp h]
          exact hg
      · rw [List.flatten_append]
        simpa using hjoin
      · unfold wrap_finish
        rw [if_neg (join_words_ne hg2 hg), build_lines_append_one]

/-- Every word of a group lies contiguously inside the joined line. -/
theorem word_in_join_words : ∀ (g : List (List Char)) (wd : List Char),
    wd ∈ g → wd <:+: join_words g := by
  intro g
  induction g with
  | nil =>
    intro wd h
    simp at h
  | cons x t ih =>
    intro wd h
    cases t with
    | nil =>
      have hx : wd = x := by simpa using h
      subst hx
      exact mid_refl wd
    | cons y t2 =>
      rw [join_words_cons2]
      rcases List.mem_cons.mp h with rfl | hm
      · exact ⟨[], ' ' :: join_words (y :: t2), by simp⟩
      · obtain ⟨s, t3, hh⟩ := ih wd hm
        exact ⟨x ++ ' ' :: s, t3, by rw [← hh]; simp⟩

/-- Each group of the partition owns one output line, in which its joined
words appear contiguously. -/
theorem line_of_group (fp np : List Char) (gs : List (List (List Char)))
    (g : List (List Char)) (h : g ∈ gs) :
    ∃ l ∈ build_lines fp np gs, join_words g <:+: l := by
  cases gs with
  | nil => simp at h
  | cons g0 t =>
    rcases List.mem_cons.mp h with rfl | hm
    · exact ⟨fp ++ join_words g, by simp [build_lines], mid_append_left fp (mid_refl _)⟩
    · refine ⟨np ++ join_words g, ?_, mid_append_left np (mid_refl _)⟩
      simp only [build_lines, List.mem_cons]
      right
      exact List.mem_map.mpr ⟨g, hm, rfl⟩

/-- C2 (amended): for every nonzero width, every complete CSI sequence
`ESC [ body m` occurring anywhere in the input to `text_wrap` appears
character for character, uninterrupted, inside a single output line; no
line break is inserted inside it. (At width 0 `text_wrap` returns no lines
at all, which is the sole correction to the claim.) -/
theorem c2_csi_intact_in_one_line (pre body post fp np : List Char) (w : Nat)
    (hw : w ≠ 0) (hm : 'm' ∉ body) :
    ∃ l ∈ text_wrap (pre ++ (escChar :: '[' :: (body ++ ['m'])) ++ post) w fp np,
      (escChar :: '[' :: (body ++ ['m'])) <:+: l := by
  obtain ⟨wd, hwmem, hwseg⟩ := split_seg_in_word pre body post hm
  obtain ⟨gs, hgne, hflat, heq⟩ := text_wrap_partition
    (pre ++ (escChar :: '[' :: (body ++ ['m'])) ++ post) w fp np hw
  rw [heq]
  rw [← hflat] at hwmem
  obtain ⟨g, hgmem, hwg⟩ := List.mem_flatten.mp hwmem
  obtain ⟨l, hlmem, hlg⟩ := line_of_group fp np gs g hgmem
  exact ⟨l, hlmem, (hwseg.trans (word_in_join_words g wd hwg)).trans hlg⟩

/-- Witness for C2: the sequence `ESC [ 3 m` inside `"a \x1b[3m b"` wrapped
at width 5 lands intact in one line. -/
theorem c2_witness :
    ∃ l ∈ text_wrap (['a', ' '] ++ (escChar :: '[' :: (['3'] ++ ['m'])) ++ [' ', 'b'])
        5 [] [],
      (escChar :: '[' :: (['3'] ++ ['m'])) <:+: l :=
  c2_csi_intact_in_one_line ['a', ' '] ['3'] [' ', 'b'] [] [] 5 (by decide) (by decide)

/-- Counterexample for C2 as stated: at width 0 the input `"\x1b[1m"`
contains a CSI sequence, yet `text_wrap` produces no line containing it,
because it produces no lines at all. -/
theorem c2_counterexample :
    ¬ ∃ l ∈ text_wrap (escChar :: '[' :: '1' :: ['m']) 0 [] [],
        (escChar :: '[' :: '1' :: ['m']) <:+: l := by
  rintro ⟨l, hl, -⟩
  simp [text_wrap] at hl

/-- C3: for every input and nonzero width, the lines of `text_wrap` are
exactly the groups of an ordered partition of the `split_text` words, each
line being its group joined by single spaces behind the inserted prefix; so
stripping the prefixes and the single inter-word spaces and concatenating
reproduces the `split_text` word sequence exactly, in order, with none
dropped or duplicated. -/
theorem c3_wrap_reconstructs_words (s : List Char) (w : Nat) (fp np : List Char)
    (hw : w ≠ 0) :
    ∃ gs : List (List (List Char)), (∀ g ∈ gs, g ≠ []) ∧
      gs.flatten = split_text s ∧ text_wrap s w fp np = build_lines fp np gs :=
  text_wrap_partition s w fp np hw

/-- Witness for C3 at a concrete input: `"one two three"` wrapped at width
8 with distinct prefixes. -/
theorem c3_witness :
    ∃ gs : List (List (List Char)), (∀ g ∈ gs, g ≠ []) ∧
      gs.flatten = split_text ['o', 'n', 'e', ' ', 't', 'w', 'o', ' ', 't', 'h', 'r', 'e', 'e'] ∧
      text_wrap ['o', 'n', 'e', ' ', 't', 'w', 'o', ' ', 't', 'h', 'r', 'e', 'e'] 8
          ['*', ' '] [' ', ' '] =
        build_lines ['*', ' '] [' ', ' '] gs :=
  c3_wrap_reconstructs_words
    ['o', 'n', 'e', ' ', 't', 'w', 'o', ' ', 't', 'h', 'r', 'e', 'e'] 8
    ['*', ' '] [' ', ' '] (by decide)

/-- C9 (amended): an escape sequence still open at end of input is appended
to the token under construction and always ends the last token of the
result; it is never lost. When the open escape follows whitespace there is
no word under construction, so the final token is the escape text alone
rather than a fusion with the preceding visual word. -/
theorem c9_open_escape_ends_last_token (s : List Char)
    (h : (List.foldl split_step ⟨[], [], false, []⟩ s).escapeBuf ≠ []) :
    ∃ wd, (split_text s).getLast? = some wd ∧
      (List.foldl split_step ⟨[], [], false, []⟩ s).escapeBuf <:+ wd := by
  unfold split_text
  rw [split_finish_eq, if_neg h]
  exact ⟨_, List.getLast?_concat _, List.suffix_append _ _⟩

/-- Witness for C9: input `"a\x1b["` ends with an open escape, and the last
token ends with that escape text. -/
theorem c9_witness :
    ∃ wd, (split_text ['a', escChar, '[']).getLast? = some wd ∧
      (List.foldl split_step ⟨[], [], false, []⟩ ['a', escChar, '[']).escapeBuf <:+ wd :=
  c9_open_escape_ends_last_token ['a', escChar, '['] (by decide)

/-- Counterexample for C9 as stated: in `"hello \x1b[3"` the open escape
follows whitespace, so `split_text` emits it as a separate final token
instead of fusing it onto the last visual word `"hello"`. -/
theorem c9_counterexample :
    split_text ['h', 'e', 'l', 'l', 'o', ' ', escChar, '[', '3'] =
      [['h', 'e', 'l', 'l', 'o'], [escChar, '[', '3']] ∧
    split_text ['h', 'e', 'l', 'l', 'o', ' ', escChar, '[', '3'] ≠
      [['h', 'e', 'l', 'l', 'o', escChar, '[', '3']] := by
  constructor <;> decide

/-- Invariant of the `simple_wrap` fold: finished lines fit in the width or
are single words of the input, and so is the current line when nonempty. -/
theorem sw_fold_inv (width : Nat) (allw : List (List Char)) :
    ∀ (ws : List (List Char)) (acc : List (List Char) × List Char),
      (∀ wd ∈ ws, wd ∈ allw) →
      (∀ l ∈ acc.1, l.length ≤ width ∨ l ∈ allw) →
      (acc.2 = [] ∨ acc.2.length ≤ width ∨ acc.2 ∈ allw) →
      (∀ l ∈ (List.foldl (sw_step width) acc ws).1, l.length ≤ width ∨ l ∈ allw) ∧
      ((List.foldl (sw_step width) acc ws).2 = [] ∨
        (List.foldl (sw_step width) acc ws).2.length ≤ width ∨
        (List.foldl (sw_step width) acc ws).2 ∈ allw) := by
  intro ws
  induction ws with
  | nil =>
    intro acc _ h1 h2
    exact ⟨h1, h2⟩
  | cons wd ws ih =>
    intro acc hmem h1 h2
    have hwdall : wd ∈ allw := hmem wd (List.mem_cons_self wd ws)
    have hmem2 : ∀ x ∈ ws, x ∈ allw := fun x hx => hmem x (List.mem_cons_of_mem _ hx)
    rw [List.foldl_cons]
    apply ih _ hmem2
    · unfold sw_step
      split_ifs with hc1 hc2
      · exact h1
      · exact h1
      · intro l hl
        rcases List.mem_append.mp hl with h | h
        · exact h1 l h
        · rw [List.mem_singleton.mp h]
          rcases h2 with he | hrest
          · exact absurd he hc1
          · exact hrest
    · unfold sw_step
      split_ifs with hc1 hc2
      · right; right; exact hwdall
      · right; left
        simp only [List.length_append, List.length_cons]
        omega
      · right; right; exact hwdall

/-- C6: for nonzero width, every line of `simple_wrap` has character count
at most the width, except that an overlong single word of the input stands
unsplit as a line by itself. -/
theorem c6_simple_wrap_width (text : List Char) (width : Nat) (hw : 0 < width) :
    ∀ l ∈ simple_wrap text width,
      l.length ≤ width ∨ (width < l.length ∧ l ∈ split_whitespace text) := by
  intro l hl
  unfold simple_wrap at hl
  by_cases hcond : width = 0 ∨ text = []
  · rw [if_pos hcond] at hl
    rcases hcond with h | h
    · omega
    · subst h
      left
      have hl2 : l = [] := by simpa using hl
      simp [hl2]
  · rw [if_neg hcond] at hl
    obtain ⟨hlines, hcur⟩ := sw_fold_inv width (split_whitespace text)
      (split_whitespace text) ([], []) (fun wd h => h) (by simp) (by simp)
    unfold sw_flush at hl
    split_ifs at hl with hc1 hc2
    · left
      have hl2 : l = [] := by simpa using hl
      simp [hl2]
    · have hP := hlines l hl
      by_cases hlen : l.length ≤ width
      · exact Or.inl hlen
      · refine Or.inr ⟨by omega, ?_⟩
        rcases hP with h | h
        · exact absurd h hlen
        · exact h
    · rcases List.mem_append.mp hl with h | h
      · have hP := hlines l h
        by_cases hlen : l.length ≤ width
        · exact Or.inl hlen
        · refine Or.inr ⟨by omega, ?_⟩
          rcases hP with h2 | h2
          · exact absurd h2 hlen
          · exact h2
      · rw [List.mem_singleton.mp h]
        rcases hcur with he | h2 | h3
        · exact absurd he hc1
        · exact Or.inl h2
        · by_cases hlen : (List.foldl (sw_step width) ([], []) (split_whitespace text)).2.length ≤ width
          · exact Or.inl hlen
          · exact Or.inr ⟨by omega, h3⟩

/-- Witness for C6: wrapping `"superlong hi"` at width 4 puts the overlong
word `"superlong"` unsplit on a line of its own. -/
theorem c6_witness :
    ['s', 'u', 'p', 'e', 'r', 'l', 'o', 'n', 'g'].length ≤ 4 ∨
      (4 < ['s', 'u', 'p', 'e', 'r', 'l', 'o', 'n', 'g'].length ∧
        ['s', 'u', 'p', 'e', 'r', 'l', 'o', 'n', 'g'] ∈
          split_whitespace ['s', 'u', 'p', 'e', 'r', 'l', 'o', 'n', 'g', ' ', 'h', 'i']) :=
  c6_simple_wrap_width ['s', 'u', 'p', 'e', 'r', 'l', 'o', 'n', 'g', ' ', 'h', 'i'] 4
    (by decide) ['s', 'u', 'p', 'e', 'r', 'l', 'o', 'n', 'g'] (by decide)

/-- C5 counterexample: no configuration input of `render_heading` (theme or
margin) can produce a left-aligned level-1 line where centering differs
from left alignment; at content `"ab"` and width 10 the renderer always
inserts the center padding, so the claimed selectable left-aligned policy
does not exist in the code. -/
theorem c5_counterexample :
    ¬ ∃ (th : Theme) (margin : List Char),
        render_heading 1 ['a', 'b'] 10 margin th =
          [margin ++ '\n' :: (margin ++ th.heading1.apply ['a', 'b'])] := by
  rintro ⟨th, m, h⟩
  have hsw : simple_wrap ['a', 'b'] 10 = [['a', 'b']] := by decide
  simp only [render_heading, hsw, List.map_cons, List.map_nil] at h
  have h1 := congrArg (fun l => (l.headD []).length) h
  simp [List.length_append] at h1
  omega

/-- C5 (amended): heading alignment for levels 1 and 2 is hard-wired to
centering: for every theme, margin, width and content, each rendered line
is the margin, a newline, the margin again, `(width - line length) / 2`
spaces, then the styled line; no configuration input selects left
alignment. -/
theorem c5_headings_hardwired_centered (th : Theme) (margin content : List Char)
    (width : Nat) :
    render_heading 1 content width margin th =
      (simple_wrap content width).map (fun line =>
        margin ++ '\n' :: (margin ++ (List.replicate ((width - line.length) / 2) ' ' ++
          th.heading1.apply line))) ∧
    render_heading 2 content width margin th =
      (simple_wrap content width).map (fun line =>
        margin ++ '\n' :: (margin ++ (List.replicate ((width - line.length) / 2) ' ' ++
          th.heading2.apply line))) :=
  ⟨rfl, rfl⟩

/-- C4 counterexample: for header `["a","bb"]` and row `["x","yy"]` the
first computed column width is 1, not 2, so the claim that both widths
equal 2 is false on the code. -/
theorem c4_counterexample :
    compute_widths [[['a'], ['b', 'b']], [['x'], ['y', 'y']]] ≠ [2, 2] := by
  decide

/-- C4 (amended): each column width is the maximum cell byte length of the
column including the header, giving widths 1 and 2 for header `["a","bb"]`
and row `["x","yy"]`; the rendered table then consists of a top border, the
header row, a header separator, the body row, and a bottom border whose
dash runs match those widths plus the two padding spaces. -/
theorem c4_table_widths_and_borders (fmt : List Char → List Char) :
    compute_widths [[['a'], ['b', 'b']], [['x'], ['y', 'y']]] = [1, 2] ∧
    flush_table fmt [[['a'], ['b', 'b']], [['x'], ['y', 'y']]] =
      [['┌', '─', '─', '─', '┬', '─', '─', '─', '─', '┐'],
       render_row fmt true [1, 2] [['a'], ['b', 'b']],
       ['├', '─', '─', '─', '┼', '─', '─', '─', '─', '┤'],
       render_row fmt false [1, 2] [['x'], ['y', 'y']],
       ['└', '─', '─', '─', '┴', '─', '─', '─', '─', '┘']] := by
  exact ⟨by decide, rfl⟩

/-- C8: a bold plus italic span renders as the theme's italic style applied
to the theme's bold style applied to the entity-decoded text, in any
surrounding element sequence — bold is applied first and italic wraps the
result; under the dark theme the italic introducer is the outermost code,
`colored` re-inserts the italic sequence after the inner bold reset, and
the final reset closes the whole span. -/
theorem c8_bold_italic_order (decode : List Char → List Char) (theme : Theme)
    (es1 es2 : List InlineElement) (t : List Char) :
    render_inline_content (es1 ++ InlineElement.boldItalic t :: es2) decode theme =
      render_inline_content es1 decode theme ++
        (theme.italic.apply (theme.bold.apply (decode t)) ++
          render_inline_content es2 decode theme) ∧
    render_inline_content [InlineElement.boldItalic ['x']] (fun x => x) Theme.dark =
      [escChar, '[', '3', 'm', escChar, '[', '1', 'm', 'x',
       escChar, '[', '0', 'm', escChar, '[', '3', 'm', escChar, '[', '0', 'm'] := by
  constructor
  · unfold render_inline_content
    rw [List.map_append, List.flatten_append, List.map_cons, List.flatten_cons]
    rfl
  · decide

/-- C1: after the queue built by any sequence of `write` calls is closed by
`finish`, the consumer has emitted every enqueued buffer exactly once, in
call order: the final trace is the concatenation of the written buffers. -/
theorem c1_finish_emits_all_in_order (ws : List (List Char)) :
    finish_output (enqueue_writes ws) = ws.flatten := by
  induction ws with
  | nil => rfl
  | cons s t ih =>
    simp only [enqueue_writes, finish_output, List.map_cons, List.cons_append,
      consumer_run, List.append_eq] at *
    rw [ih]
    simp

/-- C7: `write` fails exactly when the background consumer has terminated,
the failure is a broken-pipe error surfaced to the caller, and a successful
call only appends to the queue — it emits nothing and takes no pacing
delay. -/
theorem c7_write_broken_pipe_iff (st : StreamingWriterSt) (buf : List Nat) :
    ((∃ r, writer_write st buf = Except.ok r) ↔ st.consumerAlive = true) ∧
    (st.consumerAlive = false → writer_write st buf = Except.error IoErr.brokenPipe) ∧
    (st.consumerAlive = true →
      writer_write st buf =
        Except.ok (⟨st.queue ++ [WriterMsg.write (from_utf8_lossy buf)],
          true, st.emitted⟩, buf.length)) := by
  obtain ⟨q, alive, em⟩ := st
  cases alive <;> simp [writer_write]

/-- Witness for C7: a dead consumer turns `write` into a broken-pipe error,
a live one into a successful enqueue returning the byte count. -/
theorem c7_witness :
    writer_write ⟨[], false, []⟩ [97] = Except.error IoErr.brokenPipe ∧
    writer_write ⟨[], true, []⟩ [97] =
      Except.ok (⟨[WriterMsg.write ['a']], true, []⟩, 1) := by
  refine ⟨(c7_write_broken_pipe_iff ⟨[], false, []⟩ [97]).2.1 rfl, ?_⟩
  rw [(c7_write_broken_pipe_iff ⟨[], true, []⟩ [97]).2.2 rfl]
  rfl

/-- C10: while the consumer lives, `write` succeeds on every byte buffer,
including invalid UTF-8: the bytes are lossily decoded before enqueueing
and the returned count is the full input length. -/
theorem c10_write_lossy_total (st : StreamingWriterSt) (buf : List Nat)
    (h : st.consumerAlive = true) :
    writer_write st buf =
      Except.ok (⟨st.queue ++ [WriterMsg.write (from_utf8_lossy buf)], true,
        st.emitted⟩, buf.length) := by
  obtain ⟨q, alive, em⟩ := st
  cases alive with
  | false => simp at h
  | true => simp [writer_write]

/-- Witness for C10: the invalid byte 0xFF followed by `'a'` is enqueued as
the replacement character followed by `'a'`, and `write` reports length 2. -/
theorem c10_witness :
    writer_write ⟨[], true, []⟩ [255, 97] =
      Except.ok (⟨[WriterMsg.write [rep_char, 'a']], true, []⟩, 2) := by
  rw [c10_write_lossy_total ⟨[], true, []⟩ [255, 97] rfl]
  rfl

example : split_text ['h', 'i', ' ', 'y', 'o'] = [['h', 'i'], ['y', 'o']] := by decide

example : text_wrap ['h', 'i', ' ', 'y', 'o'] 2 [] [] = [['h', 'i'], ['y', 'o']] := by decide

example : simple_wrap ['a', ' ', 'b', 'c', 'd'] 3 = [['a'], ['b', 'c', 'd']] := by decide

example : visible_length [escChar, '[', '1', 'm', 'a', 'b'] = 2 := by decide

example :
    render_inline_content [InlineElement.boldItalic ['x']] (fun t => t) Theme.dark =
      [escChar, '[', '3', 'm', escChar, '[', '1', 'm', 'x',
       escChar, '[', '0', 'm', escChar, '[', '3', 'm', escChar, '[', '0', 'm'] := by decide

example :
    Theme.dark.bold.apply ['h', 'i'] =
      [escChar, '[', '1', 'm', 'h', 'i', escChar, '[', '0', 'm'] := by decide

example : compute_widths [[['a'], ['b', 'b']], [['x'], ['y', 'y']]] = [1, 2] := by decide

example : from_utf8_lossy [0xFF, 0x61] = [rep_char, 'a'] := by decide

example : from_utf8_lossy [0xE2, 0x94, 0x80] = ['─'] := by decide
